import Mathlib

/-!
Verification of the superdense-coding notebook (`src/superdense_coding.ipynb`).

The notebook builds a 2-qubit Bell pair (`qc.h(1); qc.cx(1, 0)`), lets Alice
encode a 2-bit message on qubit 1 (`encode_message`), and lets Bob decode it
(`decode_message`: `qc.cx(1, 0); qc.h(1); qc.measure([0,1],[0,1])` followed by
an ideal simulation returning a counts table).

The amplitude arithmetic is embedded exactly over ℚ[√2] (pairs of rationals
`a + b·√2`), so every statevector the program can reach is represented with no
rounding: the spec's "norm 1 within 1e-9" claims become exact equalities.
Qiskit's little-endian convention is kept: basis index `i : Fin 4` has qubit 0
as its least significant bit, and counts keys are the bitstrings `"c1c0"`.
-/

set_option autoImplicit false

namespace Superdense

/-- An element `a + b·√2` of the real quadratic field ℚ[√2], the smallest
field containing every amplitude component this program produces. -/
@[ext] structure Q2 where
  a : ℚ
  b : ℚ
  deriving DecidableEq, Repr

namespace Q2

instance : Zero Q2 := ⟨⟨0, 0⟩⟩
instance : One Q2 := ⟨⟨1, 0⟩⟩
instance : Add Q2 := ⟨fun x y => ⟨x.a + y.a, x.b + y.b⟩⟩
instance : Neg Q2 := ⟨fun x => ⟨-x.a, -x.b⟩⟩
instance : Sub Q2 := ⟨fun x y => ⟨x.a - y.a, x.b - y.b⟩⟩
instance : Mul Q2 := ⟨fun x y => ⟨x.a * y.a + 2 * x.b * y.b, x.a * y.b + x.b * y.a⟩⟩

@[simp] theorem zero_a : (0 : Q2).a = 0 := rfl
@[simp] theorem zero_b : (0 : Q2).b = 0 := rfl
@[simp] theorem one_a : (1 : Q2).a = 1 := rfl
@[simp] theorem one_b : (1 : Q2).b = 0 := rfl
@[simp] theorem add_a (x y : Q2) : (x + y).a = x.a + y.a := rfl
@[simp] theorem add_b (x y : Q2) : (x + y).b = x.b + y.b := rfl
@[simp] theorem neg_a (x : Q2) : (-x).a = -x.a := rfl
@[simp] theorem neg_b (x : Q2) : (-x).b = -x.b := rfl
@[simp] theorem sub_a (x y : Q2) : (x - y).a = x.a - y.a := rfl
@[simp] theorem sub_b (x y : Q2) : (x - y).b = x.b - y.b := rfl
@[simp] theorem mul_a (x y : Q2) : (x * y).a = x.a * y.a + 2 * x.b * y.b := rfl
@[simp] theorem mul_b (x y : Q2) : (x * y).b = x.a * y.b + x.b * y.a := rfl

/-- The constant `1/√2 = (√2)/2` appearing in the Hadamard gate. -/
def invSqrt2 : Q2 := ⟨0, 1/2⟩

@[simp] theorem invSqrt2_a : invSqrt2.a = 0 := rfl
@[simp] theorem invSqrt2_b : invSqrt2.b = 1/2 := rfl

end Q2

/-- A complex number whose real and imaginary parts lie in ℚ[√2].  All four
gate matrices of the program (H, X, Z, CNOT) have entries in this ring, so the
simulated statevector stays inside it. -/
@[ext] structure Cx where
  re : Q2
  im : Q2
  deriving DecidableEq, Repr

namespace Cx

instance : Zero Cx := ⟨⟨0, 0⟩⟩
instance : One Cx := ⟨⟨1, 0⟩⟩
instance : Add Cx := ⟨fun x y => ⟨x.re + y.re, x.im + y.im⟩⟩
instance : Neg Cx := ⟨fun x => ⟨-x.re, -x.im⟩⟩
instance : Sub Cx := ⟨fun x y => ⟨x.re - y.re, x.im - y.im⟩⟩
instance : SMul Q2 Cx := ⟨fun s z => ⟨s * z.re, s * z.im⟩⟩

@[simp] theorem zero_re : (0 : Cx).re = 0 := rfl
@[simp] theorem zero_im : (0 : Cx).im = 0 := rfl
@[simp] theorem one_re : (1 : Cx).re = 1 := rfl
@[simp] theorem one_im : (1 : Cx).im = 0 := rfl
@[simp] theorem add_re (x y : Cx) : (x + y).re = x.re + y.re := rfl
@[simp] theorem add_im (x y : Cx) : (x + y).im = x.im + y.im := rfl
@[simp] theorem neg_re (x : Cx) : (-x).re = -x.re := rfl
@[simp] theorem neg_im (x : Cx) : (-x).im = -x.im := rfl
@[simp] theorem sub_re (x y : Cx) : (x - y).re = x.re - y.re := rfl
@[simp] theorem sub_im (x y : Cx) : (x - y).im = x.im - y.im := rfl
@[simp] theorem smul_re (s : Q2) (z : Cx) : (s • z).re = s * z.re := rfl
@[simp] theorem smul_im (s : Q2) (z : Cx) : (s • z).im = s * z.im := rfl

/-- Squared magnitude `|z|² = re² + im²` of an amplitude (a real number,
represented in ℚ[√2]). -/
def normSq (z : Cx) : Q2 := z.re * z.re + z.im * z.im

end Cx

/-- The statevector of the 2-qubit register: one complex amplitude per basis
state.  Basis index `i` has qubit 0 as bit 0 and qubit 1 as bit 1
(qiskit's little-endian convention, matching the notebook's `|q1 q0⟩` kets). -/
abbrev State : Type := Fin 4 → Cx

/-- Value of the qubit-`q` bit inside basis index `i`
(the table of `i.val / 2 ^ q.val % 2`). -/
def bitOf : Fin 2 → Fin 4 → ℕ
  | 0, 0 => 0 | 0, 1 => 1 | 0, 2 => 0 | 0, 3 => 1
  | 1, 0 => 0 | 1, 1 => 0 | 1, 2 => 1 | 1, 3 => 1

/-- Basis index `i` with the qubit-`q` bit flipped. -/
def flipBit : Fin 2 → Fin 4 → Fin 4
  | 0, 0 => 1 | 0, 1 => 0 | 0, 2 => 3 | 0, 3 => 2
  | 1, 0 => 2 | 1, 1 => 3 | 1, 2 => 0 | 1, 3 => 1

/-- The computational basis vector `|i⟩`. -/
def basis (i : Fin 4) : State := fun j => if j = i then 1 else 0

/-- The all-zero initial state `|00⟩` a fresh circuit execution starts from. -/
def initialState : State := basis 0

/-- Modelled from the spec: application of the Hadamard gate
`H = (1/√2)·[[1,1],[1,-1]]` to qubit `q`, by iterating over the basis-state
pairs that differ only in bit `q` (the gate library itself lives in the qiskit
backend, outside `src/`; the spec fixes this matrix and the index-pair
semantics). -/
def applyH (q : Fin 2) (v : State) : State := fun i =>
  if bitOf q i = 0 then Q2.invSqrt2 • (v i + v (flipBit q i))
  else Q2.invSqrt2 • (v (flipBit q i) - v i)

/-- Modelled from the spec: application of the Pauli-X gate
`X = [[0,1],[1,0]]` to qubit `q` (amplitude swap along bit `q`). -/
def applyX (q : Fin 2) (v : State) : State := fun i => v (flipBit q i)

/-- Modelled from the spec: application of the Pauli-Z gate
`Z = [[1,0],[0,-1]]` to qubit `q` (negate amplitudes whose bit `q` is 1). -/
def applyZ (q : Fin 2) (v : State) : State := fun i =>
  if bitOf q i = 1 then -v i else v i

/-- Modelled from the spec: application of CNOT(control, target): for every
basis state whose control bit is 1, swap the two amplitudes that differ only
in the target bit; leave the rest untouched. -/
def applyCX (c t : Fin 2) (v : State) : State := fun i =>
  if bitOf c i = 1 then v (flipBit t i) else v i

/-- Sum of the squared magnitudes of the four amplitudes (the squared norm of
the statevector). -/
def norm2 (v : State) : Q2 :=
  Cx.normSq (v 0) + Cx.normSq (v 1) + Cx.normSq (v 2) + Cx.normSq (v 3)

/-- One operation of the circuit, as appended by the notebook's method calls
`qc.h`, `qc.x`, `qc.z`, `qc.cx` and `qc.measure`. -/
inductive Gate where
  | h (q : Fin 2)
  | x (q : Fin 2)
  | z (q : Fin 2)
  | cx (c t : Fin 2)
  | measure (qs cs : List (Fin 2))
  deriving DecidableEq, Repr

/-- A gate qiskit's circuit builder accepts: `cx` requires distinct control
and target qubits (qiskit raises `CircuitError` on duplicate arguments at
append time). -/
def Gate.valid : Gate → Prop
  | .cx c t => c ≠ t
  | _ => True

instance : (g : Gate) → Decidable g.valid
  | .h _ => isTrue trivial
  | .x _ => isTrue trivial
  | .z _ => isTrue trivial
  | .cx c t => inferInstanceAs (Decidable (c ≠ t))
  | .measure _ _ => isTrue trivial

/-- The notebook's `QuantumCircuit(2, 2)` object: declared qubit and classical
bit counts plus the ordered list of appended operations. -/
@[ext] structure QuantumCircuit where
  numQubits : ℕ
  numClbits : ℕ
  gates : List Gate
  deriving DecidableEq, Repr

namespace QuantumCircuit

/-- Constructor call `QuantumCircuit(n, m)`: a fresh circuit with no operations. -/
def mkCircuit (n m : ℕ) : QuantumCircuit := ⟨n, m, []⟩

/-- Method `qc.h(q)`: appends a Hadamard gate. -/
def h (qc : QuantumCircuit) (q : Fin 2) : QuantumCircuit :=
  { qc with gates := qc.gates ++ [Gate.h q] }

/-- Method `qc.x(q)`: appends a Pauli-X gate. -/
def x (qc : QuantumCircuit) (q : Fin 2) : QuantumCircuit :=
  { qc with gates := qc.gates ++ [Gate.x q] }

/-- Method `qc.z(q)`: appends a Pauli-Z gate. -/
def z (qc : QuantumCircuit) (q : Fin 2) : QuantumCircuit :=
  { qc with gates := qc.gates ++ [Gate.z q] }

/-- Method `qc.cx(c, t)`: appends a CNOT gate with control `c` and target `t`. -/
def cx (qc : QuantumCircuit) (c t : Fin 2) : QuantumCircuit :=
  { qc with gates := qc.gates ++ [Gate.cx c t] }

/-- Method `qc.measure(qs, cs)`: appends a measurement binding qubit `qs[k]` to
classical slot `cs[k]`. -/
def measure (qc : QuantumCircuit) (qs cs : List (Fin 2)) : QuantumCircuit :=
  { qc with gates := qc.gates ++ [Gate.measure qs cs] }

end QuantumCircuit

/-- Effect of one gate on the statevector.  A `measure` operation does not
change the amplitudes here: sampling from them is the separate tallying stage
of the measurement engine. -/
def applyGate (g : Gate) (v : State) : State :=
  match g with
  | .h q => applyH q v
  | .x q => applyX q v
  | .z q => applyZ q v
  | .cx c t => applyCX c t v
  | .measure _ _ => v

/-- Run a list of gates left to right on a statevector. -/
def applyGates (gs : List Gate) (v : State) : State :=
  gs.foldl (fun w g => applyGate g w) v

/-- Modelled from the spec: the statevector the `QasmSimulator` backend
(outside `src/`) reaches by replaying every gate of the circuit in order from
the all-zero initial state. -/
def runCircuit (qc : QuantumCircuit) : State :=
  applyGates qc.gates initialState

/-- The classical bitstring recorded when basis state `i` is observed, with
qubit 0 bound to classical slot 0 and qubit 1 to slot 1: qiskit prints the
classical register as `"c1c0"`, so the character of qubit 1 comes first. -/
def bitstringOf (i : Fin 4) : List Char :=
  [if bitOf 1 i = 1 then '1' else '0', if bitOf 0 i = 1 then '1' else '0']

/-- Modelled from the spec: the sampling and tallying stage of the
`QasmSimulator` backend (outside `src/`).  `sample k` is the basis state drawn
on shot `k`; a run is ideal when every draw has nonzero probability (squared
amplitude magnitude).  `get_counts v shots sample key` is the number of shots
whose recorded bitstring equals `key`. -/
def get_counts (shots : ℕ) (sample : ℕ → Fin 4) (key : List Char) : ℕ :=
  ((List.range shots).filter (fun k => bitstringOf (sample k) == key)).length

/-- A sampling function that only ever draws basis states carrying nonzero
probability in `v` during the first `shots` shots — the ideal noiseless
simulation of the spec. -/
def ValidSample (v : State) (shots : ℕ) (sample : ℕ → Fin 4) : Prop :=
  ∀ k, k < shots → Cx.normSq (v (sample k)) ≠ 0

/-- The default shot count of qiskit's `QasmSimulator.run`, used by the
notebook (its printed output is `{'11': 1024}`). -/
def default_shots : ℕ := 1024

/-- The error message of the exception `encode_message` raises on a message
of the wrong length. -/
def lengthError : String := "Error - message of incorrect length has been passed!"

/-- The notebook's `encode_message(qc, message)`.  Python mutation and
exceptions are embedded by state passing: the result is the circuit after the
call together with `some e` when the call raised exception `e` (a normal
return gives `none`, i.e. Python's `None`).  The source checks only the
length, then appends `z(1)` when `message[0] == '1'` and `x(1)` when
`message[1] == '1'`. -/
def encode_message (qc : QuantumCircuit) (message : List Char) :
    QuantumCircuit × Option String :=
  if message.length ≠ 2 then
    (qc, some lengthError)
  else
    let qc1 := if message.getD 0 ' ' = '1' then qc.z 1 else qc
    let qc2 := if message.getD 1 ' ' = '1' then qc1.x 1 else qc1
    (qc2, none)

/-- The notebook's `decode_message(qc)`: append `cx(1, 0)`, `h(1)` and
`measure([0, 1], [0, 1])` to the caller's circuit, then simulate it and return
the counts.  The returned pair is the mutated circuit (Python aliasing as
state passing) and the counts table over bitstring keys; the simulation and
sampling stage is the spec-modelled `runCircuit`/`get_counts`, parameterised
by the per-shot draw `sample`. -/
def decode_message (qc : QuantumCircuit) (shots : ℕ) (sample : ℕ → Fin 4) :
    QuantumCircuit × (List Char → ℕ) :=
  let qc3 := ((qc.cx 1 0).h 1).measure [0, 1] [0, 1]
  (qc3, get_counts shots sample)

/-- Alice's qubit: the one `encode_message` manipulates (`qc.z(1)`,
`qc.x(1)`), the left factor of the notebook's `|q1 q0⟩` kets. -/
def aliceQubit : Fin 2 := 1

/-- Bob's qubit: the other one, qubit 0. -/
def bobQubit : Fin 2 := 0

/-- The Bell-preparation circuit of the notebook:
`qc = QuantumCircuit(2, 2); qc.h(1); qc.cx(1, 0)`. -/
def bellCircuit : QuantumCircuit :=
  ((QuantumCircuit.mkCircuit 2 2).h 1).cx 1 0

/-- The basis index whose recorded bitstring is the message `[m0, m1]`:
`m0` is the bit of qubit 1 and `m1` the bit of qubit 0. -/
def msgIndex (m0 m1 : Char) : Fin 4 :=
  (if m0 = '1' then 2 else 0) + (if m1 = '1' then 1 else 0)

/-- The gate subsequence a successful `encode_message` call appends for a
2-character message: `z(1)` when the first character is `'1'`, then `x(1)`
when the second is. -/
def msgGates (message : List Char) : List Gate :=
  (if message.getD 0 ' ' = '1' then [Gate.z 1] else []) ++
    (if message.getD 1 ' ' = '1' then [Gate.x 1] else [])

/-! ### Sanity anchors for the embedding -/

/-- Table check: `bitOf` is the little-endian bit extraction `i / 2^q % 2`. -/
theorem bitOf_eq_val : ∀ (q : Fin 2) (i : Fin 4),
    bitOf q i = i.val / 2 ^ q.val % 2 := by decide

/-- Table check: `flipBit` is xor with `2^q` on basis indices. -/
theorem flipBit_eq_xor : ∀ (q : Fin 2) (i : Fin 4),
    (flipBit q i).val = i.val ^^^ 2 ^ q.val := by decide

/-! ### Amplitude algebra -/

namespace Cx

/-- The Hadamard butterfly preserves the summed squared magnitudes of the two
amplitudes it mixes. -/
theorem normSq_butterfly (x y : Cx) :
    normSq (Q2.invSqrt2 • (x + y)) + normSq (Q2.invSqrt2 • (x - y)) =
      normSq x + normSq y := by
  ext <;> simp [normSq] <;> ring

@[simp] theorem normSq_neg (x : Cx) : normSq (-x) = normSq x := by
  ext <;> simp [normSq]

end Cx

/-! ### Norm preservation and self-inverse gate lemmas -/

theorem norm2_applyH (q : Fin 2) (v : State) : norm2 (applyH q v) = norm2 v := by
  fin_cases q <;> (ext <;> simp [norm2, applyH, bitOf, flipBit, Cx.normSq] <;> ring)

theorem norm2_applyX (q : Fin 2) (v : State) : norm2 (applyX q v) = norm2 v := by
  fin_cases q <;> (ext <;> simp [norm2, applyX, flipBit, Cx.normSq] <;> ring_nf)


theorem norm2_applyZ (q : Fin 2) (v : State) : norm2 (applyZ q v) = norm2 v := by
  fin_cases q <;> (ext <;> simp [norm2, applyZ, bitOf, Cx.normSq])

theorem norm2_applyCX (c t : Fin 2) (hct : c ≠ t) (v : State) :
    norm2 (applyCX c t v) = norm2 v := by
  fin_cases c <;> fin_cases t <;> simp_all <;>
    (ext <;> simp [norm2, applyCX, bitOf, flipBit, Cx.normSq] <;> ring)

theorem norm2_applyGate (g : Gate) (hg : g.valid) (v : State) :
    norm2 (applyGate g v) = norm2 v := by
  cases g with
  | h q => exact norm2_applyH q v
  | x q => exact norm2_applyX q v
  | z q => exact norm2_applyZ q v
  | cx c t => exact norm2_applyCX c t hg v
  | measure qs cs => rfl

theorem norm2_applyGates (gs : List Gate) (hgs : ∀ g ∈ gs, g.valid) (v : State) :
    norm2 (applyGates gs v) = norm2 v := by
  induction gs generalizing v with
  | nil => rfl
  | cons g gs ih =>
      rw [applyGates, List.foldl_cons]
      rw [show List.foldl (fun w g => applyGate g w) (applyGate g v) gs =
            applyGates gs (applyGate g v) from rfl]
      rw [ih (fun g hg => hgs g (List.mem_cons_of_mem _ hg)),
        norm2_applyGate g (hgs g (List.mem_cons_self g gs)) v]

theorem norm2_initialState : norm2 initialState = 1 := by
  ext <;> simp [norm2, initialState, basis, Cx.normSq]

/-! ### Counts machinery -/

theorem bitstringOf_injective : ∀ a b : Fin 4,
    bitstringOf a = bitstringOf b → a = b := by decide

/-- Adding one more shot adds 1 to the tally of the drawn outcome's key. -/
theorem get_counts_succ (n : ℕ) (sample : ℕ → Fin 4) (key : List Char) :
    get_counts (n + 1) sample key =
      get_counts n sample key +
        (if bitstringOf (sample n) = key then 1 else 0) := by
  by_cases hk : bitstringOf (sample n) = key <;>
    simp [get_counts, List.range_succ, List.filter_append, hk]

/-- The counts over the four possible keys always tally to the shot count. -/
theorem sum_get_counts (shots : ℕ) (sample : ℕ → Fin 4) :
    ∑ b : Fin 4, get_counts shots sample (bitstringOf b) = shots := by
  induction shots with
  | zero => simp [get_counts]
  | succ n ih =>
      have hstep : ∀ b : Fin 4,
          get_counts (n + 1) sample (bitstringOf b) =
            get_counts n sample (bitstringOf b) +
              (if sample n = b then 1 else 0) := by
        intro b
        rw [get_counts_succ]
        by_cases hb : sample n = b
        · simp [hb]
        · have hbs : bitstringOf (sample n) ≠ bitstringOf b :=
            fun hc => hb (bitstringOf_injective _ _ hc)
          simp [hb, hbs]
      rw [Finset.sum_congr rfl (fun b _ => hstep b), Finset.sum_add_distrib, ih]
      simp

/-- When every one of the first `shots` draws is the basis state `t`, the
counts table is the point mass `{bitstringOf t : shots}`. -/
theorem get_counts_const (shots : ℕ) (sample : ℕ → Fin 4) (t : Fin 4)
    (hs : ∀ k, k < shots → sample k = t) :
    get_counts shots sample (bitstringOf t) = shots ∧
      ∀ key : List Char, key ≠ bitstringOf t → get_counts shots sample key = 0 := by
  constructor
  · rw [get_counts, List.filter_eq_self.mpr, List.length_range]
    intro k hk
    rw [hs k (List.mem_range.mp hk)]
    simp
  · intro key hkey
    rw [get_counts, List.filter_eq_nil_iff.mpr, List.length_nil]
    intro k hk
    rw [hs k (List.mem_range.mp hk)]
    simpa using fun hc => hkey hc.symm

/-! ### The four protocol executions -/

/-- Statevector of the full `"00"` run (Bell preparation, encoding, decoding
transform): the computational basis state `|00⟩`. -/
theorem runCircuit_protocol_00 :
    runCircuit ((((encode_message bellCircuit ['0', '0']).1.cx 1 0).h 1).measure
      [0, 1] [0, 1]) = basis 0 := by
  funext i
  fin_cases i <;>
    (ext <;>
      simp [runCircuit, applyGates, encode_message, bellCircuit,
        QuantumCircuit.mkCircuit, QuantumCircuit.h, QuantumCircuit.x,
        QuantumCircuit.z, QuantumCircuit.cx, QuantumCircuit.measure,
        applyGate, applyH, applyX, applyZ, applyCX, bitOf, flipBit,
        initialState, basis] <;> norm_num)

/-- Statevector of the full `"01"` run: the basis state `|01⟩`. -/
theorem runCircuit_protocol_01 :
    runCircuit ((((encode_message bellCircuit ['0', '1']).1.cx 1 0).h 1).measure
      [0, 1] [0, 1]) = basis 1 := by
  funext i
  fin_cases i <;>
    (ext <;>
      simp [runCircuit, applyGates, encode_message, bellCircuit,
        QuantumCircuit.mkCircuit, QuantumCircuit.h, QuantumCircuit.x,
        QuantumCircuit.z, QuantumCircuit.cx, QuantumCircuit.measure,
        applyGate, applyH, applyX, applyZ, applyCX, bitOf, flipBit,
        initialState, basis] <;> norm_num)

/-- Statevector of the full `"10"` run: the basis state `|10⟩`. -/
theorem runCircuit_protocol_10 :
    runCircuit ((((encode_message bellCircuit ['1', '0']).1.cx 1 0).h 1).measure
      [0, 1] [0, 1]) = basis 2 := by
  funext i
  fin_cases i <;>
    (ext <;>
      simp [runCircuit, applyGates, encode_message, bellCircuit,
        QuantumCircuit.mkCircuit, QuantumCircuit.h, QuantumCircuit.x,
        QuantumCircuit.z, QuantumCircuit.cx, QuantumCircuit.measure,
        applyGate, applyH, applyX, applyZ, applyCX, bitOf, flipBit,
        initialState, basis] <;> norm_num)

/-- Statevector of the full `"11"` run: `-|11⟩`, the basis state `|11⟩` up to
the unobservable global phase `-1`. -/
theorem runCircuit_protocol_11 :
    runCircuit ((((encode_message bellCircuit ['1', '1']).1.cx 1 0).h 1).measure
      [0, 1] [0, 1]) = -basis 3 := by
  funext i
  fin_cases i <;>
    (ext <;>
      simp [runCircuit, applyGates, encode_message, bellCircuit,
        QuantumCircuit.mkCircuit, QuantumCircuit.h, QuantumCircuit.x,
        QuantumCircuit.z, QuantumCircuit.cx, QuantumCircuit.measure,
        applyGate, applyH, applyX, applyZ, applyCX, bitOf, flipBit,
        initialState, basis, Pi.neg_apply] <;> norm_num)

@[simp] theorem normSq_zero : Cx.normSq 0 = 0 := by
  ext <;> simp [Cx.normSq]

@[simp] theorem normSq_one : Cx.normSq 1 = 1 := by
  ext <;> simp [Cx.normSq]

@[simp] theorem Q2_one_ne_zero : (1 : Q2) ≠ 0 := fun h => by
  have ha := congrArg Q2.a h
  simp at ha

/-- A state equal to `|t⟩` up to sign puts nonzero probability only on `t`. -/
theorem support_basis (t : Fin 4) (v : State)
    (hv : v = basis t ∨ v = -basis t) (i : Fin 4)
    (hi : Cx.normSq (v i) ≠ 0) : i = t := by
  by_contra hit
  apply hi
  rcases hv with hv | hv <;> subst hv <;>
    simp [basis, Pi.neg_apply, hit]

/-- The circuit component of `decode_message` is the caller's circuit with
the three decoding operations appended. -/
theorem decode_message_fst (qc : QuantumCircuit) (shots : ℕ) (sample : ℕ → Fin 4) :
    (decode_message qc shots sample).1 =
      ((qc.cx 1 0).h 1).measure [0, 1] [0, 1] := rfl

/-- The counts component of `decode_message` is the tally of the sampled
shots. -/
theorem decode_message_snd (qc : QuantumCircuit) (shots : ℕ) (sample : ℕ → Fin 4) :
    (decode_message qc shots sample).2 = get_counts shots sample := rfl

/-! ### The claims -/

/-- C1: for every valid message `M ∈ {"00","01","10","11"}`, building a fresh
Bell circuit (`h(1)` then `cx(1,0)`), applying `encode_message` with `M` and
then `decode_message` yields a counts table equal to `{M: shots}`: the whole
shot count sits on the bitstring `M` and every other key holds 0, for every
ideal (noiseless) sampling of the final statevector. -/
theorem protocol_counts_concentrated (m0 m1 : Char) (shots : ℕ)
    (sample : ℕ → Fin 4)
    (hM : [m0, m1] ∈ [['0', '0'], ['0', '1'], ['1', '0'], ['1', '1']])
    (hsample : ValidSample
      (runCircuit (decode_message (encode_message bellCircuit [m0, m1]).1 shots sample).1)
      shots sample) :
    (decode_message (encode_message bellCircuit [m0, m1]).1 shots sample).2 [m0, m1] = shots
    ∧ ∀ key : List Char, key ≠ [m0, m1] →
        (decode_message (encode_message bellCircuit [m0, m1]).1 shots sample).2 key = 0 := by
  simp only [List.mem_cons, List.mem_singleton, List.not_mem_nil, or_false] at hM
  rcases hM with hM | hM | hM | hM <;>
    obtain ⟨rfl, rfl⟩ : _ ∧ _ := by
      rcases List.cons_eq_cons.mp hM with ⟨h0, htl⟩
      rcases List.cons_eq_cons.mp htl with ⟨h1, -⟩
      exact ⟨h0, h1⟩
  · rw [decode_message_fst, runCircuit_protocol_00] at hsample
    have hconst : ∀ k, k < shots → sample k = 0 :=
      fun k hk => support_basis 0 (basis 0) (Or.inl rfl) (sample k) (hsample k hk)
    obtain ⟨hmain, hrest⟩ := get_counts_const shots sample 0 hconst
    rw [decode_message_snd]
    exact ⟨hmain, fun key hkey => hrest key hkey⟩
  · rw [decode_message_fst, runCircuit_protocol_01] at hsample
    have hconst : ∀ k, k < shots → sample k = 1 :=
      fun k hk => support_basis 1 (basis 1) (Or.inl rfl) (sample k) (hsample k hk)
    obtain ⟨hmain, hrest⟩ := get_counts_const shots sample 1 hconst
    rw [decode_message_snd]
    exact ⟨hmain, fun key hkey => hrest key hkey⟩
  · rw [decode_message_fst, runCircuit_protocol_10] at hsample
    have hconst : ∀ k, k < shots → sample k = 2 :=
      fun k hk => support_basis 2 (basis 2) (Or.inl rfl) (sample k) (hsample k hk)
    obtain ⟨hmain, hrest⟩ := get_counts_const shots sample 2 hconst
    rw [decode_message_snd]
    exact ⟨hmain, fun key hkey => hrest key hkey⟩
  · rw [decode_message_fst, runCircuit_protocol_11] at hsample
    have hconst : ∀ k, k < shots → sample k = 3 :=
      fun k hk => support_basis 3 (-basis 3) (Or.inr rfl) (sample k) (hsample k hk)
    obtain ⟨hmain, hrest⟩ := get_counts_const shots sample 3 hconst
    rw [decode_message_snd]
    exact ⟨hmain, fun key hkey => hrest key hkey⟩

/-- Witness for C1: message `"11"`, two shots, every draw on basis state 3:
the membership and ideal-sampling hypotheses hold and the counts put both
shots on `"11"`. -/
theorem protocol_counts_concentrated_witness :
    (decode_message (encode_message bellCircuit ['1', '1']).1 2 (fun _ => 3)).2
      ['1', '1'] = 2 :=
  (protocol_counts_concentrated '1' '1' 2 (fun _ => 3) (by decide)
    (by
      rw [decode_message_fst, runCircuit_protocol_11]
      intro k hk
      simp [basis, Pi.neg_apply])).1

/-- C2: every statevector reachable from the all-zero initial state by a
sequence of builder-accepted gates has squared norm exactly 1 (so in
particular within `1e-9` of 1; the embedding's arithmetic is exact). -/
theorem norm2_reachable (gs : List Gate) (hgs : ∀ g ∈ gs, g.valid) :
    norm2 (applyGates gs initialState) = 1 := by
  rw [norm2_applyGates gs hgs, norm2_initialState]

/-- Witness for C2: the Bell-preparation gate sequence is valid and its final
state has squared norm 1. -/
theorem norm2_reachable_witness :
    (∀ g ∈ [Gate.h 1, Gate.cx 1 0], g.valid)
    ∧ norm2 (applyGates [Gate.h 1, Gate.cx 1 0] initialState) = 1 :=
  ⟨by decide, norm2_reachable [Gate.h 1, Gate.cx 1 0] (by decide)⟩

/-- C3: `encode_message` appends exactly the gate subsequence keyed by the
message: nothing for `"00"`, `X` on Alice's qubit 1 for `"01"`, `Z` for
`"10"`, and `Z` first then `X` for `"11"`. -/
theorem encode_message_policy (qc : QuantumCircuit) :
    (encode_message qc ['0', '0']).1.gates = qc.gates
    ∧ (encode_message qc ['0', '1']).1.gates = qc.gates ++ [Gate.x 1]
    ∧ (encode_message qc ['1', '0']).1.gates = qc.gates ++ [Gate.z 1]
    ∧ (encode_message qc ['1', '1']).1.gates = qc.gates ++ [Gate.z 1, Gate.x 1] := by
  refine ⟨?_, ?_, ?_, ?_⟩ <;>
    simp [encode_message, QuantumCircuit.x, QuantumCircuit.z]

/-- Counterexample for C4: the decoding transform does NOT use Bob's qubit
(qubit 0, the one `encode_message` never touches) as the CNOT control and H
target; the source appends `cx(1, 0)` and `h(1)`, acting on Alice's qubit 1
as control and H target. -/
theorem decode_message_claimed_gates_false :
    (decode_message bellCircuit default_shots (fun _ => 0)).1.gates ≠
      bellCircuit.gates ++
        [Gate.cx bobQubit aliceQubit, Gate.h bobQubit,
          Gate.measure [0, 1] [0, 1]] := by decide

/-- C4 (amended): `decode_message` appends exactly, and in this order, a CNOT
with Alice's qubit (qubit 1) as control and Bob's qubit (qubit 0) as target,
then a Hadamard on Alice's qubit, then the measurement binding qubit 0 to
classical slot 0 and qubit 1 to slot 1, before simulating and returning the
counts table. -/
theorem decode_message_gates (qc : QuantumCircuit) (shots : ℕ)
    (sample : ℕ → Fin 4) :
    (decode_message qc shots sample).1.gates =
      qc.gates ++ [Gate.cx aliceQubit bobQubit, Gate.h aliceQubit,
        Gate.measure [0, 1] [0, 1]]
    ∧ (decode_message qc shots sample).2 = get_counts shots sample := by
  constructor
  · simp [decode_message, QuantumCircuit.cx, QuantumCircuit.h,
      QuantumCircuit.measure, aliceQubit, bobQubit]
  · rfl

/-- C5: a message whose length is not 2 makes `encode_message` raise the
length exception and leaves the circuit untouched: no gate is appended, so
the gate count after the failed call equals the gate count before it. -/
theorem encode_message_length_guard (qc : QuantumCircuit) (message : List Char)
    (hlen : message.length ≠ 2) :
    encode_message qc message = (qc, some lengthError)
    ∧ (encode_message qc message).1.gates.length = qc.gates.length := by
  have heq : encode_message qc message = (qc, some lengthError) := by
    simp [encode_message, hlen]
  exact ⟨heq, by rw [heq]⟩

/-- Witness for C5: the one-character message `"1"` fails and returns the
Bell circuit unchanged. -/
theorem encode_message_length_guard_witness :
    (['1'] : List Char).length ≠ 2
    ∧ encode_message bellCircuit ['1'] = (bellCircuit, some lengthError) :=
  ⟨by decide, (encode_message_length_guard bellCircuit ['1'] (by decide)).1⟩

/-- Counterexample for C6: the source performs no symbol validation: the
2-character message `"22"`, whose characters lie outside `{'0','1'}`, makes
`encode_message` return normally (no exception is raised) with the circuit
unchanged — it does not fail with any `InvalidMessageSymbol` condition. -/
theorem encode_message_no_symbol_validation :
    encode_message bellCircuit ['2', '2'] = (bellCircuit, none) := by
  simp [encode_message]

/-- C6 (amended): `encode_message` validates only the length, never the
symbols: every 2-character message succeeds, and any character other than
`'1'` acts exactly like `'0'` (a gate is keyed only on equality with
`'1'`). -/
theorem encode_message_symbols_ignored (qc : QuantumCircuit) (c0 c1 : Char) :
    (encode_message qc [c0, c1]).2 = none
    ∧ (encode_message qc [c0, c1]).1 =
        (encode_message qc [(if c0 = '1' then '1' else '0'),
          (if c1 = '1' then '1' else '0')]).1 := by
  constructor
  · simp [encode_message]
  · by_cases h0 : c0 = '1' <;> by_cases h1 : c1 = '1' <;>
      simp [encode_message, h0, h1]

/-- C7: for every circuit and every requested shot count ≥ 1, the counts
table `decode_message` returns maps the four bitstrings to natural numbers
summing exactly to the requested shot count, and the default shot count is
1024. -/
theorem decode_counts_sum (qc : QuantumCircuit) (shots : ℕ)
    (sample : ℕ → Fin 4) (_hshots : 1 ≤ shots) :
    (∑ b : Fin 4, (decode_message qc shots sample).2 (bitstringOf b)) = shots
    ∧ default_shots = 1024 := by
  refine ⟨?_, rfl⟩
  rw [decode_message_snd]
  exact sum_get_counts shots sample

/-- Witness for C7: one shot drawn on basis state 0 tallies to 1. -/
theorem decode_counts_sum_witness :
    (1 : ℕ) ≤ 1
    ∧ ((∑ b : Fin 4, (decode_message bellCircuit 1 (fun _ => 0)).2 (bitstringOf b)) = 1
        ∧ default_shots = 1024) :=
  ⟨by decide, decode_counts_sum bellCircuit 1 (fun _ => 0) (by decide)⟩

/-- C8: the Hadamard gate is self-inverse: applying it twice to the same
qubit returns every 2-qubit amplitude vector to its original value. -/
theorem applyH_self_inverse (q : Fin 2) (v : State) :
    applyH q (applyH q v) = v := by
  funext i
  fin_cases q <;> fin_cases i <;>
    (ext <;> simp [applyH, bitOf, flipBit] <;> ring)

/-- C9: CNOT is self-inverse: applying it twice with the same (distinct)
control and target qubits returns every 2-qubit amplitude vector to its
original value. -/
theorem applyCX_self_inverse (c t : Fin 2) (hct : c ≠ t) (v : State) :
    applyCX c t (applyCX c t v) = v := by
  funext i
  fin_cases c <;> fin_cases t <;> simp_all <;> fin_cases i <;>
    simp [applyCX, bitOf, flipBit]

/-- Witness for C9: the double CNOT(1, 0) fixes the basis state `|01⟩`. -/
theorem applyCX_self_inverse_witness :
    ((1 : Fin 2) ≠ (0 : Fin 2))
    ∧ applyCX 1 0 (applyCX 1 0 (basis 1)) = basis 1 :=
  ⟨by decide, applyCX_self_inverse 1 0 (by decide) (basis 1)⟩

/-- C10: a successful `encode_message` call returns `None` and its only
effect is appending the encoding gates to the caller's circuit: the
resulting circuit is the original one with `msgGates` appended (qubit and
classical-bit counts untouched); no fresh circuit is produced. -/
theorem encode_message_in_place (qc : QuantumCircuit) (message : List Char)
    (hlen : message.length = 2) :
    (encode_message qc message).2 = none
    ∧ (encode_message qc message).1 =
        { qc with gates := qc.gates ++ msgGates message } := by
  rcases message with - | ⟨c0, rest⟩
  · simp at hlen
  rcases rest with - | ⟨c1, rest2⟩
  · simp at hlen
  rcases rest2 with - | ⟨c2, rest3⟩
  · constructor
    · simp [encode_message]
    · by_cases h0 : c0 = '1' <;> by_cases h1 : c1 = '1' <;>
        simp [encode_message, msgGates, h0, h1,
          QuantumCircuit.x, QuantumCircuit.z]
  · simp [List.length_cons] at hlen

/-- Witness for C10: encoding `"11"` on the Bell circuit returns `None` and
appends exactly `msgGates "11"` to it. -/
theorem encode_message_in_place_witness :
    (['1', '1'] : List Char).length = 2
    ∧ ((encode_message bellCircuit ['1', '1']).2 = none
        ∧ (encode_message bellCircuit ['1', '1']).1 =
            { bellCircuit with gates := bellCircuit.gates ++ msgGates ['1', '1'] }) :=
  ⟨by decide, encode_message_in_place bellCircuit ['1', '1'] (by decide)⟩

end Superdense
